import Mathlib

/-!
Verification of `scripts/loggen-json.py`, a synthetic log-traffic generator.

Shallow embedding: every randomness draw, clock read and filesystem
observation of the Python program is an explicit parameter of the Lean
definition that embeds it.  Python floats are modelled as decimal-scaled
integers (`DecNum`, the decimal value a float prints as), Python `int()`
truncation as `pyInt`, and `json.dumps(..., separators=(",", ":"))` as a
compact character-list renderer together with a parser used to state the
round-trip property.
-/

namespace Loggen

/-- A decimal-scaled number `m / 10 ^ e`, modelling the decimal numeral a
Python float is serialized as. -/
structure DecNum where
  m : Int
  e : Nat
deriving DecidableEq, Repr

def DecNum.val (d : DecNum) : ℚ := (d.m : ℚ) / 10 ^ d.e

/-- Python `int()` truncation toward zero. -/
def pyInt (q : ℚ) : Int := if 0 ≤ q then ⌊q⌋ else ⌈q⌉

/-- `a.val ≤ b.val` phrased over the integers (`m₁/10^e₁ ≤ m₂/10^e₂` iff
`m₁·10^e₂ ≤ m₂·10^e₁`), so that it is evaluable by kernel reduction. -/
def dnLE (a b : DecNum) : Prop := a.m * 10 ^ b.e ≤ b.m * 10 ^ a.e

instance (a b : DecNum) : Decidable (dnLE a b) := by unfold dnLE; infer_instance

/-- `isPreOf pat l` : `pat` is a leading segment of `l`. -/
def isPreOf : List Char → List Char → Bool
  | [], _ => true
  | _ :: _, [] => false
  | a :: as, b :: bs => a == b && isPreOf as bs

/-- `hasSub pat l` : `pat` occurs contiguously somewhere in `l`
(Python's `pat in l`). -/
def hasSub (pat : List Char) : List Char → Bool
  | [] => isPreOf pat []
  | c :: cs => isPreOf pat (c :: cs) || hasSub pat cs

/-- Python `sub in s`. -/
def strHasSub (s sub : String) : Bool := hasSub sub.data s.data

/-- Python `str.lower()` (ASCII behaviour). -/
def strLower (s : String) : String := String.mk (s.data.map Char.toLower)

/-! ## Target resolver (`detect_log_file`)

The filesystem is abstracted: the `LOG_FILE` environment variable is an
`Option String`, and the `glob("*")` listing of the scan directory is an
`Except Unit (List FSEntry)` whose `.error` case stands for any raised
filesystem exception.  An entry records the path string (`str(p)`, which
is also the `p.name` component matched by the heuristics), whether it is
a regular file, and its modification time. -/

structure FSEntry where
  name : String
  isFile : Bool
  mtime : Int
deriving DecidableEq, Repr

def defaultLogPath : String := "/logs/ft_transcendence.jsonl"

/-- `p.is_file() and ("json" in p.name.lower() or "log" in p.name.lower())`. -/
def jsonish (p : FSEntry) : Bool :=
  p.isFile && (strHasSub (strLower p.name) "json" || strHasSub (strLower p.name) "log")

/-- `jsonish.sort(key=mtime, reverse=True); jsonish[0]` — the descending
sort is stable, so the element taken is the first one carrying the maximal
modification time. -/
def pickNewest : List FSEntry → Option FSEntry
  | [] => none
  | p :: ps => some (ps.foldl (fun best x => if best.mtime < x.mtime then x else best) p)

/-- Python truthiness of `os.environ.get("LOG_FILE")`: present and non-empty. -/
def envTruthy : Option String → Bool
  | none => false
  | some s => !(s == "")

def dummyEntry : FSEntry := ⟨"", false, 0⟩

/-- Embedding of `detect_log_file`. -/
def detect_log_file (env : Option String) (listing : Except Unit (List FSEntry)) : String :=
  if envTruthy env then env.getD ""
  else
    match listing with
    | .error _ => defaultLogPath
    | .ok paths =>
      if paths.length == 1 && (paths.getD 0 dummyEntry).isFile then
        (paths.getD 0 dummyEntry).name
      else
        match pickNewest (paths.filter jsonish) with
        | some p => p.name
        | none => defaultLogPath

/-! ## Route catalogs -/

def ROUTES : List (String × Nat) :=
  [("/", 200),
   ("/css/output.css", 200),
   ("/ts/app.js", 200),
   ("/ts/gameModesRouter.js", 404),
   ("/ts/localGame.js", 200),
   ("/ts/login-register-form.js", 200),
   ("/ts/authenticate.js", 200),
   ("/ts/userProfile.js", 200),
   ("/ts/gameUtils/drawBoard.js", 200),
   ("/ts/gameUtils/websocketManager.js", 200),
   ("/ts/gameUtils/inputHandler.js", 200),
   ("/ts/gameUtils/gameRenderer.js", 200),
   ("/ts/validateInput.js", 200),
   ("/game/multiplayer", 200),
   ("/game/online", 200),
   ("/game/online-tournament", 200),
   ("/game/local-tournament", 200),
   ("/game/local", 200),
   ("/friends", 404),
   ("/profile", 200),
   ("/login", 200),
   ("/register", 200),
   ("/assets/default-avatar.svg", 200),
   ("/ws/localGame", 200)]

/-- `random.choice([200, 406])`, the single draw taken when the auth
catalog is built at program start: `c` is the drawn index. -/
def loginStatus (c : Nat) : Nat := [200, 406].getD (c % 2) 0

/-- The auth catalog, parameterized by the status the login entry was
fixed to when the catalog was built. -/
def AUTH_ROUTES (login : Nat) : List (String × String × Nat) :=
  [("POST", "/api/auth/refresh", 401),
   ("POST", "/api/auth/login", login),
   ("POST", "/api/auth/register", 200)]

/-! ## Decimal / hex numerals -/

def decDigitsAux : Nat → List Char → List Char
  | 0, acc => acc
  | n + 1, acc => decDigitsAux ((n + 1) / 10) (Nat.digitChar ((n + 1) % 10) :: acc)
termination_by n _ => n
decreasing_by exact Nat.div_lt_self (Nat.succ_pos _) (by norm_num)

/-- Fuel-based variant of `decDigitsAux` (structural recursion, so it is
evaluable by kernel reduction; the two agree whenever `n ≤ fuel`). -/
def decDigitsGo : Nat → Nat → List Char → List Char
  | 0, _, acc => acc
  | fuel + 1, n, acc =>
    if n = 0 then acc else decDigitsGo fuel (n / 10) (Nat.digitChar (n % 10) :: acc)

/-- Decimal digits of `n`, most significant first, `['0']` for zero. -/
def natDecDigits (n : Nat) : List Char := if n = 0 then ['0'] else decDigitsGo n n []

/-- Python `f"{n}"`. -/
def natToDecStr (n : Nat) : String := String.mk (natDecDigits n)

def hexDigitsGo : Nat → Nat → List Char → List Char
  | 0, _, acc => acc
  | fuel + 1, n, acc =>
    if n = 0 then acc else hexDigitsGo fuel (n / 16) (Nat.digitChar (n % 16) :: acc)

/-- Python `f"{n:x}"` (lowercase hex). -/
def natToHexStr (n : Nat) : String :=
  if n = 0 then "0" else String.mk (hexDigitsGo n n [])

/-- Codepoint-lexicographic comparison of character lists — the string
order Python uses. -/
def lexLtB : List Char → List Char → Bool
  | [], [] => false
  | [], _ :: _ => true
  | _ :: _, [] => false
  | a :: as, b :: bs =>
    if a.toNat < b.toNat then true
    else if b.toNat < a.toNat then false
    else lexLtB as bs

/-- Python `a < b` on strings. -/
def strLt (a b : String) : Prop := lexLtB a.data b.data = true

instance (a b : String) : Decidable (strLt a b) := by unfold strLt; infer_instance

/-! ## Request identifiers (`req_id_gen`) -/

def alphabet : String := "0123456789abcdefghijklmnopqrstuvwxyz"

/-- The identifier the generator yields on its `i`-th issuance (`i ≥ 1`,
matching `itertools.count(1)`). -/
def req_id (i : Nat) : String :=
  if i ≤ 10 then "req-" ++ natToHexStr (i - 1)
  else if i - 1 < 36 then "req-" ++ String.mk [alphabet.data.getD (i - 1) ' ']
  else "req-" ++ natToDecStr i

/-! ## Log records -/

structure ReqData where
  method : String
  url : String
  host : String
  remoteAddress : String
  remotePort : Nat
deriving DecidableEq, Repr

structure ResData where
  statusCode : Nat
deriving DecidableEq, Repr

/-- A log record: the common fields plus the optional correlation fields.
The order of the optional fields mirrors the key order of the Python
dict literals. -/
structure LogRecord where
  level : Nat
  time : Int
  pid : Nat
  hostname : String
  reqId : Option String
  req : Option ReqData
  res : Option ResData
  responseTime : Option DecNum
  msg : String
deriving Repr

def host : String := "localhost:3000"

/-- The three startup banner records (`mk_server_listening_entries`),
sharing the single timestamp `t` read once. -/
def mk_server_listening_entries (H : String) (P : Nat) (t : Int) : List LogRecord :=
  [⟨30, t, P, H, none, none, none, none, "Server listening at https://[::1]:3000"⟩,
   ⟨30, t, P, H, none, none, none, none, "Server listening at https://127.0.0.1:3000"⟩,
   ⟨30, t, P, H, none, none, none, none, "ft_transcendence running at https://[::1]:3000"⟩]

/-- Embedding of `mk_incoming_request`; `rid` is the identifier drawn from
the sequence and `t0` the `now_ms()` reading. -/
def mk_incoming_request (H : String) (P : Nat) (method url hostArg : String)
    (remote_port : Nat) (rid : String) (t0 : Int) : LogRecord :=
  ⟨30, t0, P, H, some rid, some ⟨method, url, hostArg, "::1", remote_port⟩, none, none,
   "incoming request"⟩

/-- Embedding of `mk_request_completed`; `u a b` is the `random.uniform(a, b)`
draw, returned as the decimal numeral of the resulting float. -/
def mk_request_completed (H : String) (P : Nat) (u : ℚ → ℚ → DecNum)
    (rid : String) (status_code : Nat) (started_ms : Int) : LogRecord :=
  let rt := if status_code == 200 then u 0.8 40 else u 0.8 300
  ⟨30, started_ms + pyInt rt.val, P, H, some rid, none, some ⟨status_code⟩, some rt,
   "request completed"⟩

/-- The sampler honours the bounds it is called with in this program
(the two calls are `uniform(0.8, 40.0)` and `uniform(0.8, 300.0)`). -/
def uniformOK (u : ℚ → ℚ → DecNum) : Prop :=
  (dnLE ⟨8, 1⟩ (u 0.8 40) ∧ dnLE (u 0.8 40) ⟨40, 0⟩) ∧
    (dnLE ⟨8, 1⟩ (u 0.8 300) ∧ dnLE (u 0.8 300) ⟨300, 0⟩)

instance (u : ℚ → ℚ → DecNum) : Decidable (uniformOK u) := by
  unfold uniformOK; infer_instance

/-! ## Steady-state loop -/

/-- Route selection of one loop iteration: `sel` is the `random.random()`
draw, `i` the index drawn by `random.choice` on the selected catalog. -/
def pickRoute (login : Nat) (sel : ℚ) (i : Nat) : String × String × Nat :=
  if sel < 0.8 then
    ("GET", (ROUTES.getD (i % ROUTES.length) ("", 0)).1,
      (ROUTES.getD (i % ROUTES.length) ("", 0)).2)
  else
    (AUTH_ROUTES login).getD (i % (AUTH_ROUTES login).length) ("", "", 0)

/-- The randomness consumed by one steady-state iteration. -/
structure IterIn where
  sel : ℚ
  routeIdx : Nat
  port : Nat
  t0 : Int
  u : ℚ → ℚ → DecNum

def dfltIter : IterIn := ⟨0, 0, 0, 0, fun _ _ => ⟨1, 0⟩⟩

/-- The pair of records one iteration writes, `n` being the issuance index
of the request identifier drawn in it. -/
def iterPair (H : String) (P : Nat) (login : Nat) (n : Nat) (inp : IterIn) :
    LogRecord × LogRecord :=
  (mk_incoming_request H P (pickRoute login inp.sel inp.routeIdx).1
      (pickRoute login inp.sel inp.routeIdx).2.1 host inp.port (req_id n) inp.t0,
   mk_request_completed H P inp.u (req_id n)
      (pickRoute login inp.sel inp.routeIdx).2.2 inp.t0)

/-- The records the steady-state loop writes, in order, starting at
issuance index `n`, one incoming/completed pair per iteration. -/
def loopTrace (H : String) (P : Nat) (login : Nat) : Nat → List IterIn → List LogRecord
  | _, [] => []
  | n, inp :: rest =>
    (iterPair H P login n inp).1 :: (iterPair H P login n inp).2 ::
      loopTrace H P login (n + 1) rest

/-- The full emission order of `main`: the three banners (timestamp `t`),
then the loop's records, identifiers issued from 1. -/
def fullTrace (H : String) (P : Nat) (login : Nat) (t : Int)
    (inputs : List IterIn) : List LogRecord :=
  mk_server_listening_entries H P t ++ loopTrace H P login 1 inputs

/-! ## Serialization (`log_json` / `json.dumps(..., separators=(",", ":"))`)

The JSON value written for a record, rendered compactly to a character
list, together with a parser used to state the round-trip property. -/

inductive Json where
  | jint : Int → Json
  | jflo : DecNum → Json
  | jstr : String → Json
  | jobj : List (String × Json) → Json
deriving Repr

def isDigitCh (c : Char) : Bool := 48 ≤ c.toNat && c.toNat ≤ 57

def digitVal (c : Char) : Nat := c.toNat - 48

def digitsVal (l : List Char) (v : Nat) : Nat :=
  l.foldl (fun a c => a * 10 + digitVal c) v

/-- `l` left-padded with `'0'` to width `w`. -/
def padZeros (w : Nat) (l : List Char) : List Char :=
  List.replicate (w - l.length) '0' ++ l

/-- Decimal numeral of an integer. -/
def renderIntL (z : Int) : List Char :=
  (if z < 0 then ['-'] else []) ++ natDecDigits z.natAbs

/-- Decimal numeral of a float value `m / 10^e`: integer part, `'.'`,
then exactly `e` fractional digits (Python float `repr` always prints a
fractional part). -/
def renderFloL (d : DecNum) : List Char :=
  (if d.m < 0 then ['-'] else []) ++ natDecDigits (d.m.natAbs / 10 ^ d.e) ++
    '.' :: padZeros d.e (natDecDigits (d.m.natAbs % 10 ^ d.e))

mutual

/-- Compact rendering: `json.dumps(v, separators=(",", ":"))`. -/
def renderJsonL : Json → List Char
  | .jint z => renderIntL z
  | .jflo d => renderFloL d
  | .jstr s => '"' :: s.data ++ ['"']
  | .jobj fs => '{' :: renderMembersL fs ++ ['}']

def renderMembersL : List (String × Json) → List Char
  | [] => []
  | (k, v) :: fs =>
    '"' :: k.data ++ '"' :: ':' :: renderJsonL v ++
      (if fs.isEmpty then [] else ',' :: renderMembersL fs)

end

/-! ### Parser -/

/-- Consume a maximal run of digits, extending accumulated value `v` and
digit count `k`; returns value, count, remaining input. -/
def parseDigits : List Char → Nat → Nat → Nat × Nat × List Char
  | [], v, k => (v, k, [])
  | c :: cs, v, k =>
    if isDigitCh c then parseDigits cs (v * 10 + digitVal c) (k + 1)
    else (v, k, c :: cs)

def mkSgn (neg : Bool) (n : Nat) : Int := if neg then -(n : Int) else (n : Int)

/-- After `ip` and a `'.'`: the fractional digits. -/
def parseFrac (ip : Nat) (neg : Bool) (cs : List Char) : Option (Json × List Char) :=
  match cs with
  | [] => none
  | c :: _ =>
    if isDigitCh c then
      let r := parseDigits cs 0 0
      some (.jflo ⟨mkSgn neg (ip * 10 ^ r.2.1 + r.1), r.2.1⟩, r.2.2)
    else none

def parseAfterInt (ip : Nat) (neg : Bool) (cs : List Char) : Option (Json × List Char) :=
  match cs with
  | [] => some (.jint (mkSgn neg ip), [])
  | c :: cs2 =>
    if c = '.' then parseFrac ip neg cs2 else some (.jint (mkSgn neg ip), c :: cs2)

def parseNumPos (neg : Bool) (cs : List Char) : Option (Json × List Char) :=
  match cs with
  | [] => none
  | c :: _ =>
    if isDigitCh c then
      let r := parseDigits cs 0 0
      parseAfterInt r.1 neg r.2.2
    else none

def parseNum (cs : List Char) : Option (Json × List Char) :=
  match cs with
  | [] => none
  | c :: cs1 => if c = '-' then parseNumPos true cs1 else parseNumPos false (c :: cs1)

/-- String body: everything up to the closing quote (the plain-character
fragment of JSON strings; no escapes, which the generator never emits for
its ASCII payloads). -/
def parseStrBody : List Char → List Char → Option (String × List Char)
  | [], _ => none
  | c :: cs, acc =>
    if c = '"' then some (String.mk acc.reverse, cs) else parseStrBody cs (c :: acc)

mutual

def parseVal : Nat → List Char → Option (Json × List Char)
  | 0, _ => none
  | _ + 1, [] => none
  | fuel + 1, c :: cs =>
    if c = '"' then
      match parseStrBody cs [] with
      | some (s, r) => some (.jstr s, r)
      | none => none
    else if c = '{' then
      match parseMembers fuel cs with
      | some (fs, r) => some (.jobj fs, r)
      | none => none
    else parseNum (c :: cs)

/-- Members of an object, including the closing `'}'`. -/
def parseMembers : Nat → List Char → Option (List (String × Json) × List Char)
  | 0, _ => none
  | _ + 1, [] => none
  | fuel + 1, c :: cs =>
    if c = '"' then
      match parseStrBody cs [] with
      | some (k, c2 :: cs3) =>
        if c2 = ':' then
          match parseVal fuel cs3 with
          | some (v, c3 :: cs5) =>
            if c3 = ',' then
              match parseMembers fuel cs5 with
              | some (fs, r) => some ((k, v) :: fs, r)
              | none => none
            else if c3 = '}' then some ([(k, v)], cs5)
            else none
          | _ => none
        else none
      | _ => none
    else none

end

/-! ### The record's JSON value -/

def reqToJson (q : ReqData) : Json :=
  .jobj [("method", .jstr q.method), ("url", .jstr q.url), ("host", .jstr q.host),
         ("remoteAddress", .jstr q.remoteAddress), ("remotePort", .jint q.remotePort)]

def optField (key : String) (f : α → Json) : Option α → List (String × Json)
  | none => []
  | some a => [(key, f a)]

/-- The JSON object `json.dumps` receives, key order following the dict
literals in the source. -/
def recordToJson (r : LogRecord) : Json :=
  .jobj ([("level", .jint r.level), ("time", .jint r.time), ("pid", .jint r.pid),
          ("hostname", .jstr r.hostname)] ++
    optField "reqId" Json.jstr r.reqId ++
    optField "req" reqToJson r.req ++
    optField "res" (fun s => .jobj [("statusCode", .jint s.statusCode)]) r.res ++
    optField "responseTime" Json.jflo r.responseTime ++
    [("msg", .jstr r.msg)])

/-- One output line of `log_json`: the compact rendering plus `"\n"`. -/
def log_json_line (r : LogRecord) : List Char := renderJsonL (recordToJson r) ++ ['\n']

/-- `log_json` appends the line to the file and flushes. -/
def log_json (r : LogRecord) (file : List Char) : List Char := file ++ log_json_line r

/-! ### Plain payloads

The character discipline under which the renderer is exactly
`json.dumps`: printable ASCII with no `'"'` and no `'\'`, so no escape
sequences arise. -/

def plainCharB (c : Char) : Bool :=
  32 ≤ c.toNat && c.toNat ≤ 126 && !(c = '"') && !(c = '\\')

def plainStrB (s : String) : Bool := s.data.all plainCharB

mutual

def plainJson : Json → Bool
  | .jint _ => true
  | .jflo d => !(d.e = 0)
  | .jstr s => plainStrB s
  | .jobj fs => !fs.isEmpty && plainMembers fs

def plainMembers : List (String × Json) → Bool
  | [] => true
  | (k, v) :: fs => plainStrB k && plainJson v && plainMembers fs

end

/-- Record payloads for which serialization is escape-free; the float
numeral has a fractional digit, as Python float `repr` guarantees. -/
def plainRecordB (r : LogRecord) : Bool :=
  plainStrB r.hostname && plainStrB r.msg &&
    (match r.reqId with | none => true | some s => plainStrB s) &&
    (match r.req with
     | none => true
     | some q => plainStrB q.method && plainStrB q.url && plainStrB q.host &&
         plainStrB q.remoteAddress) &&
    (match r.responseTime with | none => true | some d => !(d.e = 0))

/-! ### Size bound used as parser fuel -/

mutual

def jsize : Json → Nat
  | .jint _ => 1
  | .jflo _ => 1
  | .jstr _ => 1
  | .jobj fs => 1 + msize fs

def msize : List (String × Json) → Nat
  | [] => 1
  | (_, v) :: fs => 1 + jsize v + msize fs

end

/-- Number of decimal digits (0 for 0). -/
def numDigits : Nat → Nat
  | 0 => 0
  | n + 1 => numDigits ((n + 1) / 10) + 1
termination_by n => n
decreasing_by exact Nat.div_lt_self (Nat.succ_pos _) (by norm_num)

/-- The continuation after a numeral must not extend it: it starts with
neither a digit nor `'.'`. -/
def numSep : List Char → Prop
  | [] => True
  | c :: _ => isDigitCh c = false ∧ c ≠ '.'

/-! ## Numeral lemmas -/

theorem decDigitsGo_eq (fuel : Nat) : ∀ n, n ≤ fuel → ∀ acc,
    decDigitsGo fuel n acc = decDigitsAux n acc := by
  induction fuel with
  | zero =>
    intro n hn acc
    have : n = 0 := by omega
    subst this
    simp [decDigitsGo, decDigitsAux]
  | succ fuel ih =>
    intro n hn acc
    by_cases hz : n = 0
    · subst hz
      simp [decDigitsGo, decDigitsAux]
    · obtain ⟨m, rfl⟩ := Nat.exists_eq_succ_of_ne_zero hz
      rw [decDigitsGo, if_neg hz, decDigitsAux]
      have hdiv : (m + 1) / 10 < m + 1 := Nat.div_lt_self (Nat.succ_pos _) (by norm_num)
      exact ih ((m + 1) / 10) (by omega) _

theorem natDecDigits_eq (n : Nat) :
    natDecDigits n = if n = 0 then ['0'] else decDigitsAux n [] := by
  unfold natDecDigits
  by_cases h : n = 0
  · simp [h]
  · rw [if_neg h, if_neg h, decDigitsGo_eq n n le_rfl]

theorem digitChar_is_digit : ∀ k < 10, isDigitCh (Nat.digitChar k) = true := by decide

theorem digitVal_digitChar : ∀ k < 10, digitVal (Nat.digitChar k) = k := by decide

theorem decDigitsAux_acc (n : Nat) :
    ∀ acc : List Char, decDigitsAux n acc = decDigitsAux n [] ++ acc := by
  induction n using Nat.strong_induction_on with
  | _ n ih =>
    match n with
    | 0 => intro acc; simp [decDigitsAux]
    | k + 1 =>
      intro acc
      rw [decDigitsAux, decDigitsAux,
        ih ((k + 1) / 10) (Nat.div_lt_self (Nat.succ_pos _) (by norm_num)),
        ih ((k + 1) / 10) (Nat.div_lt_self (Nat.succ_pos _) (by norm_num))
          [Nat.digitChar ((k + 1) % 10)]]
      simp

theorem decDigitsAux_all_digits (n : Nat) :
    ∀ c ∈ decDigitsAux n [], isDigitCh c = true := by
  induction n using Nat.strong_induction_on with
  | _ n ih =>
    match n with
    | 0 => simp [decDigitsAux]
    | k + 1 =>
      rw [decDigitsAux, decDigitsAux_acc]
      intro c hc
      rcases List.mem_append.mp hc with h | h
      · exact ih ((k + 1) / 10) (Nat.div_lt_self (Nat.succ_pos _) (by norm_num)) c h
      · have : c = Nat.digitChar ((k + 1) % 10) := by simpa using h
        subst this
        exact digitChar_is_digit _ (Nat.mod_lt _ (by norm_num))

theorem decDigitsAux_length (n : Nat) : (decDigitsAux n []).length = numDigits n := by
  induction n using Nat.strong_induction_on with
  | _ n ih =>
    match n with
    | 0 => simp [decDigitsAux, numDigits]
    | k + 1 =>
      rw [decDigitsAux, decDigitsAux_acc, numDigits]
      simp [ih ((k + 1) / 10) (Nat.div_lt_self (Nat.succ_pos _) (by norm_num))]

theorem digitsVal_append (l1 l2 : List Char) (v : Nat) :
    digitsVal (l1 ++ l2) v = digitsVal l2 (digitsVal l1 v) := by
  simp [digitsVal, List.foldl_append]

theorem decDigitsAux_val (n : Nat) :
    ∀ v : Nat, digitsVal (decDigitsAux n []) v = v * 10 ^ numDigits n + n := by
  induction n using Nat.strong_induction_on with
  | _ n ih =>
    match n with
    | 0 => intro v; simp [decDigitsAux, digitsVal, numDigits]
    | k + 1 =>
      intro v
      rw [decDigitsAux, decDigitsAux_acc, digitsVal_append,
        ih ((k + 1) / 10) (Nat.div_lt_self (Nat.succ_pos _) (by norm_num))]
      have hlt : (k + 1) % 10 < 10 := Nat.mod_lt _ (by norm_num)
      simp only [digitsVal, List.foldl_cons, List.foldl_nil, numDigits,
        digitVal_digitChar _ hlt]
      rw [pow_succ]
      have := Nat.div_add_mod (k + 1) 10
      ring_nf
      omega

theorem natDecDigits_all_digits (n : Nat) :
    ∀ c ∈ natDecDigits n, isDigitCh c = true := by
  rw [natDecDigits_eq]
  split
  · decide
  · exact decDigitsAux_all_digits n

theorem natDecDigits_val (n : Nat) (v : Nat) :
    digitsVal (natDecDigits n) v = v * 10 ^ (natDecDigits n).length + n := by
  rw [natDecDigits_eq]
  split
  · subst ‹n = 0›
    have h0 : digitVal '0' = 0 := by decide
    simp [digitsVal, h0]
  · rw [decDigitsAux_length, decDigitsAux_val]

theorem natDecDigits_ne_nil (n : Nat) : natDecDigits n ≠ [] := by
  rw [natDecDigits_eq]
  split
  · simp
  · intro h
    have := decDigitsAux_length n
    rw [h] at this
    simp at this
    rcases n with _ | k
    · omega
    · rw [numDigits] at this; omega

theorem numDigits_pos (n : Nat) (h : 1 ≤ n) : 1 ≤ numDigits n := by
  rcases n with _ | k
  · omega
  · rw [numDigits]; omega

theorem numDigits_le (e : Nat) : ∀ m < 10 ^ e, numDigits m ≤ e := by
  induction e with
  | zero => intro m hm; interval_cases m; simp [numDigits]
  | succ e ih =>
    intro m hm
    rcases m with _ | k
    · simp [numDigits]
    · rw [numDigits]
      have hdiv : (k + 1) / 10 < 10 ^ e := by
        rw [Nat.div_lt_iff_lt_mul (by norm_num)]
        calc k + 1 < 10 ^ (e + 1) := hm
        _ = 10 ^ e * 10 := by rw [pow_succ]
      have := ih _ hdiv
      omega

theorem natDecDigits_length_le (n e : Nat) (he : 1 ≤ e) (hn : n < 10 ^ e) :
    (natDecDigits n).length ≤ e := by
  rw [natDecDigits_eq]
  split
  · simpa
  · rw [decDigitsAux_length]; exact numDigits_le e n hn

theorem natDecDigits_len_two (n : Nat) (h : 10 ≤ n) : 2 ≤ (natDecDigits n).length := by
  rw [natDecDigits_eq]
  split
  · omega
  · rw [decDigitsAux_length]
    rcases n with _ | k
    · omega
    · rw [numDigits]
      have : 1 ≤ (k + 1) / 10 := by omega
      have := numDigits_pos _ this
      omega

theorem natDecDigits_inj (a b : Nat) (h : natDecDigits a = natDecDigits b) : a = b := by
  have ha := natDecDigits_val a 0
  have hb := natDecDigits_val b 0
  rw [h] at ha
  omega

theorem natToDecStr_inj (a b : Nat) (h : natToDecStr a = natToDecStr b) : a = b := by
  unfold natToDecStr at h
  exact natDecDigits_inj a b (by injection h)

/-! ## Parser lemmas -/

theorem parseDigits_run (l : List Char) (hl : ∀ c ∈ l, isDigitCh c = true) :
    ∀ rest v k, parseDigits (l ++ rest) v k = parseDigits rest (digitsVal l v) (k + l.length) := by
  induction l with
  | nil => intro rest v k; simp [digitsVal]
  | cons c cs ih =>
    intro rest v k
    have hc : isDigitCh c = true := hl c (by simp)
    simp only [List.cons_append, parseDigits, hc, if_true, List.append_eq]
    rw [ih (fun x hx => hl x (by simp [hx]))]
    have hval : digitsVal (c :: cs) v = digitsVal cs (v * 10 + digitVal c) := by
      simp [digitsVal]
    have hlen : k + (c :: cs).length = k + 1 + cs.length := by simp; omega
    rw [hval, hlen]

theorem parseDigits_stop (rest : List Char) (h : numSep rest ∨ rest = [] ∨
    (∃ c cs, rest = c :: cs ∧ isDigitCh c = false)) :
    ∀ v k, parseDigits rest v k = (v, k, rest) := by
  intro v k
  match rest with
  | [] => simp [parseDigits]
  | c :: cs =>
    have hc : isDigitCh c = false := by
      rcases h with h | h | ⟨c', cs', heq, hc'⟩
      · exact h.1
      · simp at h
      · injection heq with h1 h2; rw [h1]; exact hc'
    simp [parseDigits, hc]

theorem replicate_zero_val (k : Nat) (v : Nat) :
    digitsVal (List.replicate k '0') v = v * 10 ^ k := by
  induction k generalizing v with
  | zero => simp [digitsVal]
  | succ k ih =>
    rw [List.replicate_succ]
    have h0 : digitVal '0' = 0 := by decide
    simp only [digitsVal, List.foldl_cons, h0, Nat.add_zero] at *
    rw [ih (v * 10)]
    ring

theorem replicate_zero_digits (k : Nat) :
    ∀ c ∈ List.replicate k '0', isDigitCh c = true := by
  intro c hc
  have : c = '0' := List.eq_of_mem_replicate hc
  subst this
  decide

theorem padZeros_all_digits (w : Nat) (l : List Char) (hl : ∀ c ∈ l, isDigitCh c = true) :
    ∀ c ∈ padZeros w l, isDigitCh c = true := by
  intro c hc
  rcases List.mem_append.mp hc with h | h
  · exact replicate_zero_digits _ c h
  · exact hl c h

theorem padZeros_length (w : Nat) (l : List Char) (h : l.length ≤ w) :
    (padZeros w l).length = w := by
  simp [padZeros]
  omega

theorem padZeros_val (w : Nat) (l : List Char) (v : Nat) :
    digitsVal (padZeros w l) v = digitsVal l (v * 10 ^ (w - l.length)) := by
  unfold padZeros
  rw [digitsVal_append, replicate_zero_val]

theorem parseStrBody_run (l : List Char) (hl : ∀ c ∈ l, c ≠ '"') :
    ∀ rest acc, parseStrBody (l ++ '"' :: rest) acc =
      some (String.mk (acc.reverse ++ l), rest) := by
  induction l with
  | nil => intro rest acc; simp [parseStrBody]
  | cons c cs ih =>
    intro rest acc
    have hc : c ≠ '"' := hl c (by simp)
    simp only [List.cons_append, parseStrBody, hc, if_false, List.append_eq]
    rw [ih (fun x hx => hl x (by simp [hx]))]
    simp

theorem isDigitCh_ne (c : Char) (h : isDigitCh c = true) :
    c ≠ '-' ∧ c ≠ '.' ∧ c ≠ '"' ∧ c ≠ '{' ∧ c ≠ '}' ∧ c ≠ ',' ∧ c ≠ ':' := by
  unfold isDigitCh at h
  refine ⟨?_, ?_, ?_, ?_, ?_, ?_, ?_⟩ <;>
    · intro he
      rw [he] at h
      exact absurd h (by decide)

theorem parseAfterInt_sep (ip : Nat) (neg : Bool) (rest : List Char) (hrest : numSep rest) :
    parseAfterInt ip neg rest = some (.jint (mkSgn neg ip), rest) := by
  match rest with
  | [] => simp [parseAfterInt]
  | r :: rs =>
    obtain ⟨-, h2⟩ : isDigitCh r = false ∧ r ≠ '.' := hrest
    simp [parseAfterInt, h2]

/-- `parseNumPos` on an all-digit run followed by a separator-led tail. -/
theorem parseNumPos_digits (neg : Bool) (l rest : List Char) (hne : l ≠ [])
    (hdig : ∀ c ∈ l, isDigitCh c = true) :
    parseNumPos neg (l ++ rest) = parseAfterInt (parseDigits (l ++ rest) 0 0).1 neg
      (parseDigits (l ++ rest) 0 0).2.2 := by
  obtain ⟨c, t, hct⟩ : ∃ c t, l = c :: t := List.exists_cons_of_ne_nil hne
  subst hct
  have hc : isDigitCh c = true := hdig c (by simp)
  simp [parseNumPos, hc]

/-- Parsing the rendering of an integer numeral. -/
theorem parseNum_renderInt (z : Int) (rest : List Char) (hrest : numSep rest) :
    parseNum (renderIntL z ++ rest) = some (.jint z, rest) := by
  have hdig := natDecDigits_all_digits z.natAbs
  have hne := natDecDigits_ne_nil z.natAbs
  have hrun : parseDigits (natDecDigits z.natAbs ++ rest) 0 0 =
      (z.natAbs, 0 + (natDecDigits z.natAbs).length, rest) := by
    rw [parseDigits_run _ hdig, natDecDigits_val,
      parseDigits_stop rest (Or.inl hrest)]
    simp
  by_cases hz : z < 0
  · have hr : renderIntL z = '-' :: natDecDigits z.natAbs := by simp [renderIntL, hz]
    rw [hr, List.cons_append]
    have h1 : parseNum ('-' :: (natDecDigits z.natAbs ++ rest)) =
        parseNumPos true (natDecDigits z.natAbs ++ rest) := by
      simp [parseNum]
    rw [h1, parseNumPos_digits true _ rest hne hdig, hrun,
      parseAfterInt_sep _ _ _ hrest]
    have : mkSgn true z.natAbs = z := by
      have ha := Int.natAbs_eq z
      unfold mkSgn
      simp only [if_pos]
      omega
    rw [this]
  · have hr : renderIntL z = natDecDigits z.natAbs := by simp [renderIntL, hz]
    obtain ⟨c, t, hct⟩ : ∃ c t, natDecDigits z.natAbs = c :: t :=
      List.exists_cons_of_ne_nil hne
    have hc : isDigitCh c = true := hdig c (by rw [hct]; simp)
    have hcm : c ≠ '-' := (isDigitCh_ne c hc).1
    have h1 : parseNum (natDecDigits z.natAbs ++ rest) =
        parseNumPos false (natDecDigits z.natAbs ++ rest) := by
      rw [hct, List.cons_append]
      simp [parseNum, hcm]
    rw [hr, h1, parseNumPos_digits false _ rest hne hdig, hrun,
      parseAfterInt_sep _ _ _ hrest]
    have : mkSgn false z.natAbs = z := by
      have ha := Int.natAbs_eq z
      unfold mkSgn
      simp only [Bool.false_eq_true, if_false]
      omega
    rw [this]

/-- Parsing the rendering of a float numeral. -/
theorem parseNum_renderFlo (d : DecNum) (he : d.e ≠ 0) (rest : List Char)
    (hrest : numSep rest) : parseNum (renderFloL d ++ rest) = some (.jflo d, rest) := by
  have hepos : 1 ≤ d.e := Nat.one_le_iff_ne_zero.mpr he
  have hfrlt : d.m.natAbs % 10 ^ d.e < 10 ^ d.e :=
    Nat.mod_lt _ (pow_pos (by norm_num) _)
  have hfrdig : ∀ c ∈ padZeros d.e (natDecDigits (d.m.natAbs % 10 ^ d.e)),
      isDigitCh c = true :=
    padZeros_all_digits _ _ (natDecDigits_all_digits _)
  have hfrlen : (padZeros d.e (natDecDigits (d.m.natAbs % 10 ^ d.e))).length = d.e :=
    padZeros_length _ _ (natDecDigits_length_le _ _ hepos hfrlt)
  have hfrne : padZeros d.e (natDecDigits (d.m.natAbs % 10 ^ d.e)) ≠ [] := by
    intro h
    rw [h] at hfrlen
    simp at hfrlen
    omega
  have hfrval : digitsVal (padZeros d.e (natDecDigits (d.m.natAbs % 10 ^ d.e))) 0 =
      d.m.natAbs % 10 ^ d.e := by
    rw [padZeros_val, Nat.zero_mul, natDecDigits_val]
    simp
  have hipdig := natDecDigits_all_digits (d.m.natAbs / 10 ^ d.e)
  have hipne := natDecDigits_ne_nil (d.m.natAbs / 10 ^ d.e)
  have hfrac : ∀ neg : Bool,
      parseFrac (d.m.natAbs / 10 ^ d.e) neg
        (padZeros d.e (natDecDigits (d.m.natAbs % 10 ^ d.e)) ++ rest) =
      some (.jflo ⟨mkSgn neg d.m.natAbs, d.e⟩, rest) := by
    intro neg
    obtain ⟨c, t, hct⟩ := List.exists_cons_of_ne_nil hfrne
    have hc : isDigitCh c = true := hfrdig c (by rw [hct]; simp)
    have hrun : parseDigits
        (padZeros d.e (natDecDigits (d.m.natAbs % 10 ^ d.e)) ++ rest) 0 0 =
        (d.m.natAbs % 10 ^ d.e,
         0 + (padZeros d.e (natDecDigits (d.m.natAbs % 10 ^ d.e))).length, rest) := by
      rw [parseDigits_run _ hfrdig, hfrval, parseDigits_stop rest (Or.inl hrest)]
    rw [hct, List.cons_append]
    simp only [parseFrac, hc, if_true]
    rw [← List.cons_append, ← hct, hrun]
    simp only [hfrlen, Nat.zero_add]
    have hdm : d.m.natAbs / 10 ^ d.e * 10 ^ d.e + d.m.natAbs % 10 ^ d.e = d.m.natAbs := by
      rw [Nat.mul_comm]
      exact Nat.div_add_mod _ _
    rw [hdm]
  have hiprun : parseDigits (natDecDigits (d.m.natAbs / 10 ^ d.e) ++
      ('.' :: (padZeros d.e (natDecDigits (d.m.natAbs % 10 ^ d.e)) ++ rest))) 0 0 =
      (d.m.natAbs / 10 ^ d.e, 0 + (natDecDigits (d.m.natAbs / 10 ^ d.e)).length,
       '.' :: (padZeros d.e (natDecDigits (d.m.natAbs % 10 ^ d.e)) ++ rest)) := by
    rw [parseDigits_run _ hipdig, natDecDigits_val]
    rw [parseDigits_stop _ (Or.inr (Or.inr ⟨'.', _, rfl, by decide⟩))]
    simp
  have hmain : ∀ neg : Bool,
      parseNumPos neg (natDecDigits (d.m.natAbs / 10 ^ d.e) ++
        ('.' :: (padZeros d.e (natDecDigits (d.m.natAbs % 10 ^ d.e)) ++ rest))) =
      some (.jflo ⟨mkSgn neg d.m.natAbs, d.e⟩, rest) := by
    intro neg
    rw [parseNumPos_digits neg _ _ hipne hipdig, hiprun]
    simp only [parseAfterInt, if_pos rfl]
    exact hfrac neg
  have hshape : renderFloL d ++ rest =
      (if d.m < 0 then ['-'] else []) ++ (natDecDigits (d.m.natAbs / 10 ^ d.e) ++
        ('.' :: (padZeros d.e (natDecDigits (d.m.natAbs % 10 ^ d.e)) ++ rest))) := by
    simp [renderFloL]
  by_cases hm : d.m < 0
  · rw [hshape]
    simp only [hm, if_true, List.cons_append, List.nil_append]
    have h1 : ∀ x : List Char, parseNum ('-' :: x) = parseNumPos true x := by
      intro x
      simp [parseNum]
    rw [h1, hmain true]
    have : mkSgn true d.m.natAbs = d.m := by
      have ha := Int.natAbs_eq d.m
      unfold mkSgn
      simp only [if_pos]
      omega
    rw [this]
  · rw [hshape]
    simp only [hm, if_false, List.nil_append]
    obtain ⟨c, t, hct⟩ := List.exists_cons_of_ne_nil hipne
    have hc : isDigitCh c = true := hipdig c (by rw [hct]; simp)
    have hcm : c ≠ '-' := (isDigitCh_ne c hc).1
    have h1 : parseNum (natDecDigits (d.m.natAbs / 10 ^ d.e) ++
        ('.' :: (padZeros d.e (natDecDigits (d.m.natAbs % 10 ^ d.e)) ++ rest))) =
        parseNumPos false (natDecDigits (d.m.natAbs / 10 ^ d.e) ++
        ('.' :: (padZeros d.e (natDecDigits (d.m.natAbs % 10 ^ d.e)) ++ rest))) := by
      rw [hct, List.cons_append]
      simp [parseNum, hcm]
    rw [h1, hmain false]
    have : mkSgn false d.m.natAbs = d.m := by
      have ha := Int.natAbs_eq d.m
      unfold mkSgn
      simp only [Bool.false_eq_true, if_false]
      omega
    rw [this]

/-! ## Round-trip: helpers -/

theorem jsize_pos (j : Json) : 1 ≤ jsize j := by
  match j with
  | .jint _ => simp [jsize]
  | .jflo _ => simp [jsize]
  | .jstr _ => simp [jsize]
  | .jobj fs => rw [jsize]; omega

theorem msize_pos (fs : List (String × Json)) : 1 ≤ msize fs := by
  match fs with
  | [] => simp [msize]
  | (k, v) :: fs => rw [msize]; omega

theorem renderIntL_head (z : Int) :
    ∃ c t, renderIntL z = c :: t ∧ (c = '-' ∨ isDigitCh c = true) := by
  unfold renderIntL
  by_cases hz : z < 0
  · exact ⟨'-', natDecDigits z.natAbs, by simp [hz], Or.inl rfl⟩
  · obtain ⟨c, t, hct⟩ := List.exists_cons_of_ne_nil (natDecDigits_ne_nil z.natAbs)
    exact ⟨c, t, by simp [hz, hct],
      Or.inr (natDecDigits_all_digits _ c (by rw [hct]; simp))⟩

theorem renderFloL_head (d : DecNum) :
    ∃ c t, renderFloL d = c :: t ∧ (c = '-' ∨ isDigitCh c = true) := by
  unfold renderFloL
  by_cases hm : d.m < 0
  · exact ⟨'-', natDecDigits (d.m.natAbs / 10 ^ d.e) ++
      '.' :: padZeros d.e (natDecDigits (d.m.natAbs % 10 ^ d.e)),
      by simp [hm], Or.inl rfl⟩
  · obtain ⟨c, t, hct⟩ :=
      List.exists_cons_of_ne_nil (natDecDigits_ne_nil (d.m.natAbs / 10 ^ d.e))
    refine ⟨c, t ++ '.' :: padZeros d.e (natDecDigits (d.m.natAbs % 10 ^ d.e)), ?_,
      Or.inr (natDecDigits_all_digits _ c (by rw [hct]; simp))⟩
    simp [hm, hct]

theorem parseVal_succ_num (fuel : Nat) (c : Char) (cs : List Char)
    (h1 : c ≠ '"') (h2 : c ≠ '{') :
    parseVal (fuel + 1) (c :: cs) = parseNum (c :: cs) := by
  simp [parseVal, h1, h2]

theorem parseVal_succ_str (fuel : Nat) (cs : List Char) (s : String) (r : List Char)
    (h : parseStrBody cs [] = some (s, r)) :
    parseVal (fuel + 1) ('"' :: cs) = some (.jstr s, r) := by
  simp [parseVal, h]

theorem parseVal_succ_obj (fuel : Nat) (cs : List Char) (fs : List (String × Json))
    (r : List Char) (h : parseMembers fuel cs = some (fs, r)) :
    parseVal (fuel + 1) ('{' :: cs) = some (.jobj fs, r) := by
  have hq : ('{' : Char) ≠ '"' := by decide
  simp [parseVal, hq, h]

theorem plainCharB_spec (c : Char) (h : plainCharB c = true) :
    32 ≤ c.toNat ∧ c.toNat ≤ 126 ∧ c ≠ '"' ∧ c ≠ '\\' := by
  unfold plainCharB at h
  simp only [Bool.and_eq_true, Bool.not_eq_true', decide_eq_true_eq,
    decide_eq_false_iff_not] at h
  exact ⟨h.1.1.1, h.1.1.2, h.1.2, h.2⟩

theorem plainStrB_no_quote (s : String) (h : plainStrB s = true) :
    ∀ c ∈ s.data, c ≠ '"' := by
  intro c hc
  exact (plainCharB_spec c ((List.all_eq_true.mp h) c hc)).2.2.1

theorem plainJson_obj (fs : List (String × Json)) (h : plainJson (.jobj fs) = true) :
    fs ≠ [] ∧ plainMembers fs = true := by
  rw [plainJson] at h
  simp only [Bool.and_eq_true, Bool.not_eq_true'] at h
  exact ⟨fun he => by subst he; simp at h, h.2⟩

theorem plainMembers_cons (k : String) (v : Json) (fs : List (String × Json))
    (h : plainMembers ((k, v) :: fs) = true) :
    plainStrB k = true ∧ plainJson v = true ∧ plainMembers fs = true := by
  rw [plainMembers] at h
  simp only [Bool.and_eq_true] at h
  exact ⟨h.1.1, h.1.2, h.2⟩

theorem strMk_data (s : String) : String.mk s.data = s := rfl

/-- Inversion: parsing the compact rendering of a plain value returns the
value and leaves exactly the continuation, given enough fuel. -/
theorem parse_render (fuel : Nat) :
    (∀ (j : Json) (rest : List Char), plainJson j = true → jsize j ≤ fuel → numSep rest →
      parseVal fuel (renderJsonL j ++ rest) = some (j, rest)) ∧
    (∀ (fs : List (String × Json)) (rest : List Char), plainMembers fs = true →
      fs ≠ [] → msize fs ≤ fuel →
      parseMembers fuel (renderMembersL fs ++ '}' :: rest) = some (fs, rest)) := by
  induction fuel with
  | zero =>
    constructor
    · intro j _ _ hsz _
      have := jsize_pos j
      omega
    · intro fs _ _ _ hsz
      have := msize_pos fs
      omega
  | succ fuel ih =>
    obtain ⟨ihv, ihm⟩ := ih
    constructor
    · intro j rest hp hsz hsep
      match j with
      | .jint z =>
        obtain ⟨c, t, hct, hc⟩ := renderIntL_head z
        have h1 : c ≠ '"' := by
          rcases hc with h | h
          · subst h; decide
          · exact (isDigitCh_ne c h).2.2.1
        have h2 : c ≠ '{' := by
          rcases hc with h | h
          · subst h; decide
          · exact (isDigitCh_ne c h).2.2.2.1
        rw [renderJsonL, hct, List.cons_append, parseVal_succ_num fuel c _ h1 h2,
          ← List.cons_append, ← hct]
        exact parseNum_renderInt z rest hsep
      | .jflo d =>
        have he : d.e ≠ 0 := by
          rw [plainJson] at hp
          simpa using hp
        obtain ⟨c, t, hct, hc⟩ := renderFloL_head d
        have h1 : c ≠ '"' := by
          rcases hc with h | h
          · subst h; decide
          · exact (isDigitCh_ne c h).2.2.1
        have h2 : c ≠ '{' := by
          rcases hc with h | h
          · subst h; decide
          · exact (isDigitCh_ne c h).2.2.2.1
        rw [renderJsonL, hct, List.cons_append, parseVal_succ_num fuel c _ h1 h2,
          ← List.cons_append, ← hct]
        exact parseNum_renderFlo d he rest hsep
      | .jstr s =>
        have hnq : ∀ c ∈ s.data, c ≠ '"' :=
          plainStrB_no_quote s (by rw [plainJson] at hp; exact hp)
        have hsh : renderJsonL (.jstr s) ++ rest = '"' :: (s.data ++ '"' :: rest) := by
          rw [renderJsonL]
          simp
        rw [hsh, parseVal_succ_str fuel _ s rest
          (by rw [parseStrBody_run s.data hnq]; simp [strMk_data])]
      | .jobj fs =>
        obtain ⟨hne, hpm⟩ := plainJson_obj fs hp
        have hsz2 : msize fs ≤ fuel := by rw [jsize] at hsz; omega
        have hsh : renderJsonL (.jobj fs) ++ rest =
            '{' :: (renderMembersL fs ++ '}' :: rest) := by
          rw [renderJsonL]
          simp
        rw [hsh, parseVal_succ_obj fuel _ fs rest (ihm fs rest hpm hne hsz2)]
    · intro fs rest hpm hne hsz
      match fs with
      | [] => exact absurd rfl hne
      | (k, v) :: fs2 =>
        obtain ⟨hk, hv, hfs2⟩ := plainMembers_cons k v fs2 hpm
        have hknq := plainStrB_no_quote k hk
        have hszv : jsize v ≤ fuel := by
          rw [msize] at hsz
          have := msize_pos fs2
          omega
        by_cases h2 : fs2 = []
        · subst h2
          have hinput : renderMembersL [(k, v)] ++ '}' :: rest =
              '"' :: (k.data ++ '"' :: (':' :: (renderJsonL v ++ '}' :: rest))) := by
            rw [renderMembersL]
            simp
          have hstr : parseStrBody (k.data ++ '"' :: (':' :: (renderJsonL v ++ '}' :: rest)))
              [] = some (k, ':' :: (renderJsonL v ++ '}' :: rest)) := by
            rw [parseStrBody_run k.data hknq]
            simp [strMk_data]
          have hval : parseVal fuel (renderJsonL v ++ '}' :: rest) = some (v, '}' :: rest) :=
            ihv v _ hv hszv ⟨by decide, by decide⟩
          rw [hinput]
          simp only [parseMembers, if_pos rfl]
          rw [hstr]
          simp only [if_pos rfl]
          rw [hval]
          have hc1 : ('}' : Char) = ',' ↔ False := by simp
          simp
        · have hinput : renderMembersL ((k, v) :: fs2) ++ '}' :: rest =
              '"' :: (k.data ++ '"' :: (':' :: (renderJsonL v ++
                ',' :: (renderMembersL fs2 ++ '}' :: rest)))) := by
            rw [renderMembersL]
            simp [h2]
          have hstr : parseStrBody (k.data ++ '"' :: (':' :: (renderJsonL v ++
              ',' :: (renderMembersL fs2 ++ '}' :: rest)))) [] =
              some (k, ':' :: (renderJsonL v ++
                ',' :: (renderMembersL fs2 ++ '}' :: rest))) := by
            rw [parseStrBody_run k.data hknq]
            simp [strMk_data]
          have hval : parseVal fuel (renderJsonL v ++
              ',' :: (renderMembersL fs2 ++ '}' :: rest)) =
              some (v, ',' :: (renderMembersL fs2 ++ '}' :: rest)) :=
            ihv v _ hv hszv ⟨by decide, by decide⟩
          have hsz3 : msize fs2 ≤ fuel := by
            rw [msize] at hsz
            have := jsize_pos v
            omega
          have hrec : parseMembers fuel (renderMembersL fs2 ++ '}' :: rest) =
              some (fs2, rest) := ihm fs2 rest hfs2 h2 hsz3
          rw [hinput]
          simp only [parseMembers, if_pos rfl]
          rw [hstr]
          simp only [if_pos rfl]
          rw [hval]
          simp only [if_pos rfl]
          rw [hrec]
          simp

theorem digit_char_range (c : Char) (h : isDigitCh c = true) :
    32 ≤ c.toNat ∧ c.toNat ≤ 126 := by
  unfold isDigitCh at h
  simp only [Bool.and_eq_true, decide_eq_true_eq] at h
  omega

theorem renderIntL_chars (z : Int) :
    ∀ c ∈ renderIntL z, 32 ≤ c.toNat ∧ c.toNat ≤ 126 := by
  intro c hc
  unfold renderIntL at hc
  rcases List.mem_append.mp hc with h | h
  · have : c = '-' := by
      by_cases hz : z < 0 <;> simp [hz] at h
      exact h
    subst this
    decide
  · exact digit_char_range c (natDecDigits_all_digits _ c h)

theorem renderFloL_chars (d : DecNum) :
    ∀ c ∈ renderFloL d, 32 ≤ c.toNat ∧ c.toNat ≤ 126 := by
  intro c hc
  unfold renderFloL at hc
  rcases List.mem_append.mp hc with h | h
  · rcases List.mem_append.mp h with h | h
    · have : c = '-' := by
        by_cases hm : d.m < 0 <;> simp [hm] at h
        exact h
      subst this
      decide
    · exact digit_char_range c (natDecDigits_all_digits _ c h)
  · rcases List.mem_cons.mp h with h | h
    · subst h; decide
    · exact digit_char_range c (padZeros_all_digits _ _ (natDecDigits_all_digits _) c h)

/-- Every character of the compact rendering of a plain value is printable
ASCII (so in particular no newline and no control whitespace occurs). -/
theorem render_chars (fuel : Nat) :
    (∀ j, plainJson j = true → jsize j ≤ fuel →
      ∀ c ∈ renderJsonL j, 32 ≤ c.toNat ∧ c.toNat ≤ 126) ∧
    (∀ fs, plainMembers fs = true → msize fs ≤ fuel →
      ∀ c ∈ renderMembersL fs, 32 ≤ c.toNat ∧ c.toNat ≤ 126) := by
  induction fuel with
  | zero =>
    constructor
    · intro j _ hsz
      have := jsize_pos j
      omega
    · intro fs _ hsz
      have := msize_pos fs
      omega
  | succ fuel ih =>
    obtain ⟨ihv, ihm⟩ := ih
    constructor
    · intro j hp hsz c hc
      match j with
      | .jint z =>
        rw [renderJsonL] at hc
        exact renderIntL_chars z c hc
      | .jflo d =>
        rw [renderJsonL] at hc
        exact renderFloL_chars d c hc
      | .jstr s =>
        rw [renderJsonL] at hc
        rcases List.mem_cons.mp hc with h | h
        · subst h; decide
        · rcases List.mem_append.mp h with h | h
          · have := plainCharB_spec c ((List.all_eq_true.mp (by rw [plainJson] at hp; exact hp)) c h)
            exact ⟨this.1, this.2.1⟩
          · have : c = '"' := by simpa using h
            subst this
            decide
      | .jobj fs =>
        obtain ⟨hne, hpm⟩ := plainJson_obj fs hp
        have hsz2 : msize fs ≤ fuel := by rw [jsize] at hsz; omega
        rw [renderJsonL] at hc
        rcases List.mem_cons.mp hc with h | h
        · subst h; decide
        · rcases List.mem_append.mp h with h | h
          · exact ihm fs hpm hsz2 c h
          · have : c = '}' := by simpa using h
            subst this
            decide
    · intro fs hpm hsz c hc
      match fs with
      | [] =>
        rw [renderMembersL] at hc
        simp at hc
      | (k, v) :: fs2 =>
        obtain ⟨hk, hv, hfs2⟩ := plainMembers_cons k v fs2 hpm
        have hszv : jsize v ≤ fuel := by
          rw [msize] at hsz
          have := msize_pos fs2
          omega
        have hsz3 : msize fs2 ≤ fuel := by
          rw [msize] at hsz
          have := jsize_pos v
          omega
        rw [renderMembersL] at hc
        have hc2 : c = '"' ∨ c ∈ k.data ∨ c = '"' ∨ c = ':' ∨ c ∈ renderJsonL v ∨
            c ∈ (if fs2.isEmpty then ([] : List Char) else ',' :: renderMembersL fs2) := by
          simp only [List.mem_cons, List.mem_append] at hc
          tauto
        rcases hc2 with h | h | h | h | h | h
        · subst h; decide
        · have := plainCharB_spec c ((List.all_eq_true.mp hk) c h)
          exact ⟨this.1, this.2.1⟩
        · subst h; decide
        · subst h; decide
        · exact ihv v hv hszv c h
        · by_cases h2 : fs2.isEmpty
          · simp [h2] at h
          · simp only [h2, if_false] at h
            rcases List.mem_cons.mp h with h | h
            · subst h; decide
            · exact ihm fs2 hfs2 hsz3 c h

/-- The JSON value of any record is size-bounded (its shape is fixed up to
presence of the optional fields), so fuel 40 always suffices. -/
theorem jsize_record (r : LogRecord) : jsize (recordToJson r) ≤ 40 := by
  rcases r with ⟨level, time, pid, hostname, reqId, req, res, rt, msg⟩
  rcases reqId <;> rcases req <;> rcases res <;> rcases rt <;>
    simp [recordToJson, optField, reqToJson, jsize, msize]

/-- Plain record payloads give a plain JSON value. -/
theorem plainRecord_json (r : LogRecord) (h : plainRecordB r = true) :
    plainJson (recordToJson r) = true := by
  rcases r with ⟨level, time, pid, hostname, reqId, req, res, rt, msg⟩
  unfold plainRecordB at h
  simp only [Bool.and_eq_true] at h
  obtain ⟨⟨⟨⟨hh, hm⟩, hrid⟩, hreq⟩, hrt⟩ := h
  have k1 : plainStrB "level" = true := by decide
  have k2 : plainStrB "time" = true := by decide
  have k3 : plainStrB "pid" = true := by decide
  have k4 : plainStrB "hostname" = true := by decide
  have k5 : plainStrB "reqId" = true := by decide
  have k6 : plainStrB "req" = true := by decide
  have k7 : plainStrB "method" = true := by decide
  have k8 : plainStrB "url" = true := by decide
  have k9 : plainStrB "host" = true := by decide
  have k10 : plainStrB "remoteAddress" = true := by decide
  have k11 : plainStrB "remotePort" = true := by decide
  have k12 : plainStrB "res" = true := by decide
  have k13 : plainStrB "statusCode" = true := by decide
  have k14 : plainStrB "responseTime" = true := by decide
  have k15 : plainStrB "msg" = true := by decide
  rcases reqId with _ | rid <;> rcases req with _ | q <;> rcases res with _ | s <;>
      rcases rt with _ | d <;>
    simp_all [recordToJson, optField, reqToJson, plainJson, plainMembers, k1, k2, k3,
      k4, k5, k6, k7, k8, k9, k10, k11, k12, k13, k14, k15]

/-! ## Claim C9 -/

/-- C9: Every emitted record is serialized as exactly one line of compact
JSON terminated by a single newline, and parsing that line back yields a
structure equal to the original record's logical fields.  Formally, for
every record whose string payloads are plain printable ASCII (as all
payloads this generator produces are) and whose float numeral carries a
fractional digit (as Python float `repr` guarantees): the written line is
the compact rendering of the record's JSON value followed by one `'\n'`;
the rendering itself contains only printable ASCII characters (so no
newline, and no whitespace outside string payloads); and parsing the
rendering returns exactly the record's JSON value — the structure of its
logical fields — consuming the whole line. -/
theorem c9_round_trip (r : LogRecord) (h : plainRecordB r = true) :
    log_json_line r = renderJsonL (recordToJson r) ++ ['\n'] ∧
    parseVal 40 (renderJsonL (recordToJson r)) = some (recordToJson r, []) ∧
    (∀ c ∈ renderJsonL (recordToJson r), 32 ≤ c.toNat ∧ c.toNat ≤ 126) := by
  refine ⟨rfl, ?_, ?_⟩
  · have h1 := (parse_render 40).1 (recordToJson r) [] (plainRecord_json r h)
      (jsize_record r) trivial
    simpa using h1
  · exact (render_chars 40).1 _ (plainRecord_json r h) (jsize_record r)

/-- Witness for C9 at a concrete "request completed" record. -/
theorem c9_round_trip_witness :
    parseVal 40 (renderJsonL (recordToJson ⟨30, 6, 7, "h", some "req-0", none,
      some ⟨200⟩, some ⟨15, 1⟩, "request completed"⟩)) =
    some (recordToJson ⟨30, 6, 7, "h", some "req-0", none, some ⟨200⟩, some ⟨15, 1⟩,
      "request completed"⟩, []) :=
  (c9_round_trip ⟨30, 6, 7, "h", some "req-0", none, some ⟨200⟩, some ⟨15, 1⟩,
    "request completed"⟩ (by decide)).2.1

/-! ## Sampler and truncation lemmas -/

theorem dnLE_val (a b : DecNum) : dnLE a b ↔ a.val ≤ b.val := by
  unfold dnLE DecNum.val
  rw [div_le_div_iff₀ (by positivity) (by positivity)]
  constructor
  · intro h
    exact_mod_cast h
  · intro h
    exact_mod_cast h

theorem uniformOK_val (u : ℚ → ℚ → DecNum) (h : uniformOK u) :
    (0.8 ≤ (u 0.8 40).val ∧ (u 0.8 40).val ≤ 40) ∧
      (0.8 ≤ (u 0.8 300).val ∧ (u 0.8 300).val ≤ 300) := by
  obtain ⟨⟨h1, h2⟩, h3, h4⟩ := h
  rw [dnLE_val] at h1 h2 h3 h4
  have hv8 : (⟨8, 1⟩ : DecNum).val = 0.8 := by unfold DecNum.val; norm_num
  have hv40 : (⟨40, 0⟩ : DecNum).val = 40 := by unfold DecNum.val; norm_num
  have hv300 : (⟨300, 0⟩ : DecNum).val = 300 := by unfold DecNum.val; norm_num
  rw [hv8] at h1 h3
  rw [hv40] at h2
  rw [hv300] at h4
  exact ⟨⟨h1, h2⟩, h3, h4⟩

theorem pyInt_floor (q : ℚ) (h : 0 ≤ q) : pyInt q = ⌊q⌋ := by
  unfold pyInt
  rw [if_pos h]

theorem pyInt_nonneg (q : ℚ) (h : 0 ≤ q) : 0 ≤ pyInt q := by
  rw [pyInt_floor q h]
  exact Int.floor_nonneg.mpr h

/-- The elapsed-time draw taken by `mk_request_completed`, whatever the
status, lies in `[0.8, 300]` for a bounds-honouring sampler. -/
theorem rt_draw_bounds (u : ℚ → ℚ → DecNum) (s : Nat) (hu : uniformOK u) :
    0.8 ≤ (if s == 200 then u 0.8 40 else u 0.8 300).val ∧
      (if s == 200 then u 0.8 40 else u 0.8 300).val ≤ 300 := by
  obtain ⟨⟨h1, h2⟩, h3, h4⟩ := uniformOK_val u hu
  by_cases hs : s = 200
  · simp only [hs, beq_self_eq_true, if_true]
    exact ⟨h1, by linarith⟩
  · have : (s == 200) = false := by simp [hs]
    simp only [this, if_false]
    exact ⟨h3, h4⟩

/-! ## Trace lemmas -/

theorem loopTrace_split (H : String) (P : Nat) (login : Nat) (inputs : List IterIn) :
    ∀ n k, k < inputs.length → ∃ pre post,
      loopTrace H P login n inputs =
        pre ++ (iterPair H P login (n + k) (inputs.getD k dfltIter)).1 ::
          (iterPair H P login (n + k) (inputs.getD k dfltIter)).2 :: post := by
  induction inputs with
  | nil => intro n k hk; simp at hk
  | cons inp rest ih =>
    intro n k hk
    match k with
    | 0 =>
      refine ⟨[], loopTrace H P login (n + 1) rest, ?_⟩
      simp [loopTrace]
    | k' + 1 =>
      obtain ⟨pre, post, hpp⟩ := ih (n + 1) k' (by simpa using hk)
      refine ⟨(iterPair H P login n inp).1 :: (iterPair H P login n inp).2 :: pre,
        post, ?_⟩
      have harith : n + 1 + k' = n + (k' + 1) := by omega
      rw [harith] at hpp
      rw [loopTrace]
      simp [hpp]

theorem loopTrace_reqId (H : String) (P : Nat) (login : Nat) :
    ∀ (inputs : List IterIn) n, ∀ r ∈ loopTrace H P login n inputs,
      r.reqId.isSome = true := by
  intro inputs
  induction inputs with
  | nil => intro n r hr; simp [loopTrace] at hr
  | cons inp rest ih =>
    intro n r hr
    rw [loopTrace] at hr
    rcases List.mem_cons.mp hr with rfl | hr
    · simp [iterPair, mk_incoming_request]
    · rcases List.mem_cons.mp hr with rfl | hr
      · simp [iterPair, mk_request_completed]
      · exact ih (n + 1) r hr

/-! ## Claim C1 -/

/-- C1: On every steady-state iteration, the completed record carries the
same request identifier as the incoming record of that iteration, its
timestamp is at least the incoming record's timestamp, and the trace
written by `main` contains the incoming record immediately before its
matching completed record (so the incoming record is written first).
`inputs` lists the randomness each iteration consumes; iteration `k`
(0-based) draws the `(k+1)`-th request identifier. -/
theorem c1_pair_invariants (H : String) (P : Nat) (login : Nat) (t : Int)
    (inputs : List IterIn) (k : Nat) (hk : k < inputs.length)
    (hu : uniformOK (inputs.getD k dfltIter).u) :
    (iterPair H P login (k + 1) (inputs.getD k dfltIter)).2.reqId =
      (iterPair H P login (k + 1) (inputs.getD k dfltIter)).1.reqId ∧
    (iterPair H P login (k + 1) (inputs.getD k dfltIter)).1.time ≤
      (iterPair H P login (k + 1) (inputs.getD k dfltIter)).2.time ∧
    ∃ pre post, fullTrace H P login t inputs =
      pre ++ (iterPair H P login (k + 1) (inputs.getD k dfltIter)).1 ::
        (iterPair H P login (k + 1) (inputs.getD k dfltIter)).2 :: post := by
  refine ⟨?_, ?_, ?_⟩
  · simp [iterPair, mk_incoming_request, mk_request_completed]
  · have hb := rt_draw_bounds (inputs.getD k dfltIter).u
      (pickRoute login (inputs.getD k dfltIter).sel (inputs.getD k dfltIter).routeIdx).2.2 hu
    have hpos : 0 ≤ pyInt (if (pickRoute login (inputs.getD k dfltIter).sel
        (inputs.getD k dfltIter).routeIdx).2.2 == 200 then
          (inputs.getD k dfltIter).u 0.8 40
        else (inputs.getD k dfltIter).u 0.8 300).val :=
      pyInt_nonneg _ (by linarith [hb.1])
    simp only [iterPair, mk_incoming_request, mk_request_completed]
    omega
  · obtain ⟨pre, post, hpp⟩ := loopTrace_split H P login inputs 1 k hk
    have harith : 1 + k = k + 1 := by omega
    rw [harith] at hpp
    exact ⟨mk_server_listening_entries H P t ++ pre, post, by
      rw [fullTrace, hpp]
      simp⟩

/-- Witness for C1: one iteration with the default randomness. -/
theorem c1_pair_invariants_witness :
    (iterPair "h" 1 200 (0 + 1) ([dfltIter].getD 0 dfltIter)).2.reqId =
      (iterPair "h" 1 200 (0 + 1) ([dfltIter].getD 0 dfltIter)).1.reqId ∧
    (iterPair "h" 1 200 (0 + 1) ([dfltIter].getD 0 dfltIter)).1.time ≤
      (iterPair "h" 1 200 (0 + 1) ([dfltIter].getD 0 dfltIter)).2.time ∧
    ∃ pre post, fullTrace "h" 1 200 0 [dfltIter] =
      pre ++ (iterPair "h" 1 200 (0 + 1) ([dfltIter].getD 0 dfltIter)).1 ::
        (iterPair "h" 1 200 (0 + 1) ([dfltIter].getD 0 dfltIter)).2 :: post :=
  c1_pair_invariants "h" 1 200 0 [dfltIter] 0 (by decide) (by decide)

/-! ## Claim C7 -/

/-- C7: At startup the program emits exactly three banner records before
any request record: the first three records of the trace are the banners,
there are exactly three of them, they share the single timestamp `t`, none
carries a request identifier or a request/response descriptor, and every
record after them is a request-correlated record (it carries a request
identifier). -/
theorem c7_banners (H : String) (P : Nat) (login : Nat) (t : Int)
    (inputs : List IterIn) :
    (fullTrace H P login t inputs).take 3 = mk_server_listening_entries H P t ∧
    (mk_server_listening_entries H P t).length = 3 ∧
    (∀ r ∈ mk_server_listening_entries H P t, r.time = t ∧ r.reqId = none ∧
      r.req = none ∧ r.res = none ∧ r.responseTime = none) ∧
    (∀ r ∈ (fullTrace H P login t inputs).drop 3, r.reqId.isSome = true) := by
  refine ⟨?_, rfl, ?_, ?_⟩
  · rw [fullTrace, mk_server_listening_entries]
    simp [List.take]
  · intro r hr
    rw [mk_server_listening_entries] at hr
    rcases List.mem_cons.mp hr with rfl | hr
    · exact ⟨rfl, rfl, rfl, rfl, rfl⟩
    rcases List.mem_cons.mp hr with rfl | hr
    · exact ⟨rfl, rfl, rfl, rfl, rfl⟩
    rcases List.mem_cons.mp hr with rfl | hr
    · exact ⟨rfl, rfl, rfl, rfl, rfl⟩
    · simp at hr
  · intro r hr
    have hdrop : (fullTrace H P login t inputs).drop 3 =
        loopTrace H P login 1 inputs := by
      rw [fullTrace, mk_server_listening_entries]
      simp
    rw [hdrop] at hr
    exact loopTrace_reqId H P login inputs 1 r hr

/-- Witness for C7 at the first banner record. -/
theorem c7_banners_witness :
    (⟨30, 5, 1, "h", none, none, none, none,
      "Server listening at https://[::1]:3000"⟩ : LogRecord).time = 5 ∧
    (⟨30, 5, 1, "h", none, none, none, none,
      "Server listening at https://[::1]:3000"⟩ : LogRecord).reqId = none ∧
    (⟨30, 5, 1, "h", none, none, none, none,
      "Server listening at https://[::1]:3000"⟩ : LogRecord).req = none ∧
    (⟨30, 5, 1, "h", none, none, none, none,
      "Server listening at https://[::1]:3000"⟩ : LogRecord).res = none ∧
    (⟨30, 5, 1, "h", none, none, none, none,
      "Server listening at https://[::1]:3000"⟩ : LogRecord).responseTime = none :=
  (c7_banners "h" 1 200 5 []).2.2.1 _ (by simp [mk_server_listening_entries])

/-! ## Claim C3 -/

/-- C3 counterexample: with start time 0, status 200 and the in-range draw
rt = 1.5, the completed record's time is `0 + int(1.5) = 1`, which is
strictly below `R.time + C.responseTime = 1.5` — the claimed inequality
`C.time ≥ R.time + C.responseTime` fails. -/
theorem c3_counterexample :
    uniformOK (fun _ _ => (⟨15, 1⟩ : DecNum)) ∧
    (mk_request_completed "h" 1 (fun _ _ => ⟨15, 1⟩) "req-0" 200 0).responseTime =
      some ⟨15, 1⟩ ∧
    (mk_request_completed "h" 1 (fun _ _ => ⟨15, 1⟩) "req-0" 200 0).time = 1 ∧
    ¬ (((mk_request_completed "h" 1 (fun _ _ => ⟨15, 1⟩) "req-0" 200 0).time : ℚ) ≥
        ((0 : Int) : ℚ) + (⟨15, 1⟩ : DecNum).val) := by
  have htime : (mk_request_completed "h" 1 (fun _ _ => ⟨15, 1⟩) "req-0" 200 0).time = 1 := by
    simp only [mk_request_completed, beq_self_eq_true, if_true]
    have : pyInt (⟨15, 1⟩ : DecNum).val = 1 := by
      unfold DecNum.val
      rw [pyInt_floor _ (by norm_num), Int.floor_eq_iff]
      constructor <;> norm_num
    rw [this]
    norm_num
  refine ⟨by decide, by simp [mk_request_completed], htime, ?_⟩
  rw [htime]
  unfold DecNum.val
  norm_num

/-- C3 (amended): the completed record's timestamp equals the incoming
timestamp plus the floor of the elapsed time `responseTime`; hence it is
at most `R.time + C.responseTime` (the claimed `≥` holds only when the
draw is integral) and exceeds `R.time + C.responseTime - 1`. -/
theorem c3_completed_time (H : String) (P : Nat) (u : ℚ → ℚ → DecNum)
    (rid : String) (s : Nat) (t0 : Int) (hu : uniformOK u) :
    ∃ rt : DecNum, (mk_request_completed H P u rid s t0).responseTime = some rt ∧
      (mk_request_completed H P u rid s t0).time = t0 + ⌊rt.val⌋ ∧
      ((mk_request_completed H P u rid s t0).time : ℚ) ≤ (t0 : ℚ) + rt.val ∧
      (t0 : ℚ) + rt.val - 1 < ((mk_request_completed H P u rid s t0).time : ℚ) := by
  refine ⟨if s == 200 then u 0.8 40 else u 0.8 300, by simp [mk_request_completed], ?_, ?_, ?_⟩
  · have hb := rt_draw_bounds u s hu
    simp only [mk_request_completed]
    rw [pyInt_floor _ (by linarith [hb.1])]
  · have hb := rt_draw_bounds u s hu
    simp only [mk_request_completed]
    rw [pyInt_floor _ (by linarith [hb.1])]
    push_cast
    have := Int.floor_le (if s == 200 then u 0.8 40 else u 0.8 300).val
    linarith
  · have hb := rt_draw_bounds u s hu
    simp only [mk_request_completed]
    rw [pyInt_floor _ (by linarith [hb.1])]
    push_cast
    have := Int.sub_one_lt_floor (if s == 200 then u 0.8 40 else u 0.8 300).val
    linarith

/-- Witness for C3 (amended) at the default sampler. -/
theorem c3_completed_time_witness :
    ∃ rt : DecNum,
      (mk_request_completed "h" 1 (fun _ _ => ⟨1, 0⟩) "req-0" 200 0).responseTime =
        some rt ∧
      (mk_request_completed "h" 1 (fun _ _ => ⟨1, 0⟩) "req-0" 200 0).time = 0 + ⌊rt.val⌋ ∧
      (((mk_request_completed "h" 1 (fun _ _ => ⟨1, 0⟩) "req-0" 200 0).time : Int) : ℚ) ≤
        ((0 : Int) : ℚ) + rt.val ∧
      ((0 : Int) : ℚ) + rt.val - 1 <
        (((mk_request_completed "h" 1 (fun _ _ => ⟨1, 0⟩) "req-0" 200 0).time : Int) : ℚ) :=
  c3_completed_time "h" 1 (fun _ _ => ⟨1, 0⟩) "req-0" 200 0 (by decide)

/-! ## Claim C4 -/

/-- C4: For a completed record built from status code `s` and start time
`t0` with a bounds-honouring sampler: the simulated elapsed time `rt` is
the uniform draw over `[0.8, 40]` when `s` is the success code (which this
program tests as `s == 200`) and over `[0.8, 300]` otherwise; the record's
`time` is `t0 + int(rt)` (`pyInt` is Python `int()` truncation) and its
`responseTime` is the untruncated `rt`. -/
theorem c4_completed_fields (H : String) (P : Nat) (u : ℚ → ℚ → DecNum)
    (rid : String) (s : Nat) (t0 : Int) (hu : uniformOK u) :
    ∃ rt : DecNum,
      rt = (if s == 200 then u 0.8 40 else u 0.8 300) ∧
      (mk_request_completed H P u rid s t0).responseTime = some rt ∧
      (mk_request_completed H P u rid s t0).time = t0 + pyInt rt.val ∧
      (mk_request_completed H P u rid s t0).res = some ⟨s⟩ ∧
      (s = 200 → 0.8 ≤ rt.val ∧ rt.val ≤ 40) ∧
      (s ≠ 200 → 0.8 ≤ rt.val ∧ rt.val ≤ 300) := by
  obtain ⟨⟨h1, h2⟩, h3, h4⟩ := uniformOK_val u hu
  refine ⟨if s == 200 then u 0.8 40 else u 0.8 300, rfl,
    by simp [mk_request_completed], by simp [mk_request_completed],
    by simp [mk_request_completed], ?_, ?_⟩
  · intro hs
    simp only [hs, beq_self_eq_true, if_true]
    exact ⟨h1, h2⟩
  · intro hs
    have : (s == 200) = false := by simp [hs]
    simp only [this, if_false]
    exact ⟨h3, h4⟩

/-- Witness for C4 at status 200 and the default sampler. -/
theorem c4_completed_fields_witness :
    ∃ rt : DecNum,
      rt = (if 200 == 200 then (fun _ _ => (⟨1, 0⟩ : DecNum)) (0.8 : ℚ) (40 : ℚ)
            else (fun _ _ => (⟨1, 0⟩ : DecNum)) (0.8 : ℚ) (300 : ℚ)) ∧
      (mk_request_completed "h" 1 (fun _ _ => ⟨1, 0⟩) "req-0" 200 0).responseTime =
        some rt ∧
      (mk_request_completed "h" 1 (fun _ _ => ⟨1, 0⟩) "req-0" 200 0).time =
        0 + pyInt rt.val ∧
      (mk_request_completed "h" 1 (fun _ _ => ⟨1, 0⟩) "req-0" 200 0).res = some ⟨200⟩ ∧
      (200 = 200 → 0.8 ≤ rt.val ∧ rt.val ≤ 40) ∧
      (200 ≠ 200 → 0.8 ≤ rt.val ∧ rt.val ≤ 300) :=
  c4_completed_fields "h" 1 (fun _ _ => ⟨1, 0⟩) "req-0" 200 0 (by decide)

/-! ## Claim C10 -/

/-- C10: Only the literal status code 200 selects the fast elapsed-time
range: for every other status code — 201, 204, any other 2xx included —
the record's elapsed time is the draw over the wide range `[0.8, 300]`,
while status 200 takes the draw over `[0.8, 40]`. -/
theorem c10_only_200_fast (H : String) (P : Nat) (u : ℚ → ℚ → DecNum)
    (rid : String) (s : Nat) (t0 : Int) (hs : s ≠ 200) (hu : uniformOK u) :
    (mk_request_completed H P u rid s t0).responseTime = some (u 0.8 300) ∧
    0.8 ≤ (u 0.8 300).val ∧ (u 0.8 300).val ≤ 300 ∧
    (mk_request_completed H P u rid 200 t0).responseTime = some (u 0.8 40) := by
  obtain ⟨⟨h1, h2⟩, h3, h4⟩ := uniformOK_val u hu
  have hbeq : (s == 200) = false := by simp [hs]
  exact ⟨by simp [mk_request_completed, hbeq], h3, h4, by simp [mk_request_completed]⟩

/-- Witness for C10 at the other success status 201. -/
theorem c10_only_200_fast_witness :
    (mk_request_completed "h" 1 (fun _ _ => ⟨8, 1⟩) "req-0" 201 0).responseTime =
      some ((fun _ _ => (⟨8, 1⟩ : DecNum)) (0.8 : ℚ) (300 : ℚ)) ∧
    0.8 ≤ ((fun _ _ => (⟨8, 1⟩ : DecNum)) (0.8 : ℚ) (300 : ℚ)).val ∧
    ((fun _ _ => (⟨8, 1⟩ : DecNum)) (0.8 : ℚ) (300 : ℚ)).val ≤ 300 ∧
    (mk_request_completed "h" 1 (fun _ _ => ⟨8, 1⟩) "req-0" 200 0).responseTime =
      some ((fun _ _ => (⟨8, 1⟩ : DecNum)) (0.8 : ℚ) (40 : ℚ)) :=
  c10_only_200_fast "h" 1 (fun _ _ => ⟨8, 1⟩) "req-0" 201 0 (by decide) (by decide)

/-! ## Claim C6 -/

/-- C6: On each steady-state iteration, if the uniform selection draw is
below 0.8 the route is taken from the general catalog with the method
fixed to "GET" — the drawn index ranges over the whole catalog, every
entry being reachable; otherwise the (method, url, status) triple is taken
from the authentication catalog, likewise with every entry reachable. -/
theorem c6_route_selection (login : Nat) (sel : ℚ) (i : Nat) :
    (sel < 0.8 →
      (pickRoute login sel i).1 = "GET" ∧
      (pickRoute login sel i).2 = ROUTES.getD (i % ROUTES.length) ("", 0) ∧
      ∀ r ∈ ROUTES, ∃ j, pickRoute login sel j = ("GET", r.1, r.2)) ∧
    (¬ sel < 0.8 →
      pickRoute login sel i =
        (AUTH_ROUTES login).getD (i % (AUTH_ROUTES login).length) ("", "", 0) ∧
      ∀ r ∈ AUTH_ROUTES login, ∃ j, pickRoute login sel j = r) := by
  constructor
  · intro hsel
    refine ⟨?_, ?_, ?_⟩
    · unfold pickRoute
      rw [if_pos hsel]
    · unfold pickRoute
      rw [if_pos hsel]
    · intro r hr
      obtain ⟨n, hn⟩ := List.mem_iff_get.mp hr
      refine ⟨n.1, ?_⟩
      unfold pickRoute
      rw [if_pos hsel, Nat.mod_eq_of_lt n.2, List.getD_eq_getElem _ _ n.2, ← hn]
      simp [List.get_eq_getElem]
  · intro hsel
    refine ⟨?_, ?_⟩
    · unfold pickRoute
      rw [if_neg hsel]
    · intro r hr
      obtain ⟨n, hn⟩ := List.mem_iff_get.mp hr
      refine ⟨n.1, ?_⟩
      unfold pickRoute
      rw [if_neg hsel, Nat.mod_eq_of_lt n.2, List.getD_eq_getElem _ _ n.2, ← hn]
      simp [List.get_eq_getElem]

/-- Witness for C6: a draw below the cutoff selects the general catalog
with method GET, one at or above it selects the auth catalog. -/
theorem c6_route_selection_witness :
    (pickRoute 200 0 5).1 = "GET" ∧
    pickRoute 200 1 4 =
      (AUTH_ROUTES 200).getD (4 % (AUTH_ROUTES 200).length) ("", "", 0) :=
  ⟨((c6_route_selection 200 0 5).1 (by norm_num)).1,
   ((c6_route_selection 200 1 4).2 (by norm_num)).1⟩

/-! ## Claim C8 -/

/-- C8: The status code of the authentication catalog's login entry is
fixed when the catalog is built: the single build-time draw yields 200 or
406, and any two steady-state draws that select the login route — whatever
their iteration's selection draw and index — carry that same status; it
does not vary per request. -/
theorem c8_login_status_fixed (c : Nat) (sel1 sel2 : ℚ) (i1 i2 : Nat)
    (h1 : ¬ sel1 < 0.8) (h2 : ¬ sel2 < 0.8)
    (hu1 : (pickRoute (loginStatus c) sel1 i1).2.1 = "/api/auth/login")
    (hu2 : (pickRoute (loginStatus c) sel2 i2).2.1 = "/api/auth/login") :
    (loginStatus c = 200 ∨ loginStatus c = 406) ∧
    (pickRoute (loginStatus c) sel1 i1).2.2 = loginStatus c ∧
    (pickRoute (loginStatus c) sel1 i1).2.2 = (pickRoute (loginStatus c) sel2 i2).2.2 := by
  have hval : loginStatus c = 200 ∨ loginStatus c = 406 := by
    unfold loginStatus
    have : c % 2 = 0 ∨ c % 2 = 1 := by omega
    rcases this with h | h <;> simp [h]
  have key : ∀ (sel : ℚ) (i : Nat), ¬ sel < 0.8 →
      (pickRoute (loginStatus c) sel i).2.1 = "/api/auth/login" →
      (pickRoute (loginStatus c) sel i).2.2 = loginStatus c := by
    intro sel i hs hurl
    unfold pickRoute at hurl ⊢
    rw [if_neg hs] at hurl ⊢
    have hlen : (AUTH_ROUTES (loginStatus c)).length = 3 := by simp [AUTH_ROUTES]
    rw [hlen] at hurl ⊢
    have h3 : i % 3 = 0 ∨ i % 3 = 1 ∨ i % 3 = 2 := by omega
    rcases h3 with h | h | h <;> rw [h] at hurl ⊢ <;>
      simp [AUTH_ROUTES] at hurl ⊢
  exact ⟨hval, key sel1 i1 h1 hu1, by rw [key sel1 i1 h1 hu1, key sel2 i2 h2 hu2]⟩

/-- Witness for C8: build-time draw index 0 fixes the login status at 200,
and two different iterations drawing the login route agree on it. -/
theorem c8_login_status_fixed_witness :
    (loginStatus 0 = 200 ∨ loginStatus 0 = 406) ∧
    (pickRoute (loginStatus 0) 1 1).2.2 = loginStatus 0 ∧
    (pickRoute (loginStatus 0) 1 1).2.2 = (pickRoute (loginStatus 0) 1 4).2.2 := by
  have hn : ¬ (1 : ℚ) < 0.8 := by norm_num
  have hurl1 : (pickRoute (loginStatus 0) 1 1).2.1 = "/api/auth/login" := by
    unfold pickRoute
    rw [if_neg hn]
    simp [AUTH_ROUTES]
  have hurl2 : (pickRoute (loginStatus 0) 1 4).2.1 = "/api/auth/login" := by
    unfold pickRoute
    rw [if_neg hn]
    simp [AUTH_ROUTES]
  exact c8_login_status_fixed 0 1 1 1 4 hn hn hurl1 hurl2

/-! ## Claim C2 -/

theorem foldl_newest (es : List FSEntry) : ∀ e : FSEntry,
    (es.foldl (fun best x => if best.mtime < x.mtime then x else best) e = e ∨
      es.foldl (fun best x => if best.mtime < x.mtime then x else best) e ∈ es) ∧
    e.mtime ≤ (es.foldl (fun best x => if best.mtime < x.mtime then x else best) e).mtime ∧
    ∀ x ∈ es, x.mtime ≤
      (es.foldl (fun best x => if best.mtime < x.mtime then x else best) e).mtime := by
  induction es with
  | nil => intro e; simp
  | cons a as ih =>
    intro e
    by_cases h : e.mtime < a.mtime
    · simp only [List.foldl_cons, if_pos h]
      obtain ⟨h1, h2, h3⟩ := ih a
      refine ⟨?_, le_trans (le_of_lt h) h2, ?_⟩
      · rcases h1 with h1 | h1
        · exact Or.inr (by rw [h1]; simp)
        · exact Or.inr (by simp [h1])
      · intro x hx
        rcases List.mem_cons.mp hx with rfl | hx
        · exact h2
        · exact h3 x hx
    · simp only [List.foldl_cons, if_neg h]
      obtain ⟨h1, h2, h3⟩ := ih e
      refine ⟨?_, h2, ?_⟩
      · rcases h1 with h1 | h1
        · exact Or.inl h1
        · exact Or.inr (by simp [h1])
      · intro x hx
        rcases List.mem_cons.mp hx with rfl | hx
        · exact le_trans (le_of_not_lt h) h2
        · exact h3 x hx

theorem pickNewest_spec (l : List FSEntry) (hl : l ≠ []) :
    ∃ p, pickNewest l = some p ∧ p ∈ l ∧ ∀ x ∈ l, x.mtime ≤ p.mtime := by
  match l with
  | [] => exact absurd rfl hl
  | e :: es =>
    obtain ⟨h1, h2, h3⟩ := foldl_newest es e
    refine ⟨_, rfl, ?_, ?_⟩
    · rcases h1 with h1 | h1
      · rw [h1]; simp
      · simp [h1]
    · intro x hx
      rcases List.mem_cons.mp hx with rfl | hx
      · exact h2
      · exact h3 x hx

/-- C2 counterexample.  Two divergences from the claim, at concrete
inputs: (1) with the override present but empty (`LOG_FILE=""`, falsy in
Python), the resolver does not return it verbatim but falls through to the
default; (2) with a scan directory holding exactly one file `"a.txt"`
(next to a subdirectory `"sub"`, so the listing has two entries), the
resolver does not return that file's path — the single-entry branch does
not fire and `"a.txt"` is not jsonish — but the default. -/
theorem c2_counterexample :
    detect_log_file (some "") (.ok []) = "/logs/ft_transcendence.jsonl" ∧
    "/logs/ft_transcendence.jsonl" ≠ "" ∧
    detect_log_file none (.ok [⟨"sub", false, 0⟩, ⟨"a.txt", true, 5⟩]) =
      "/logs/ft_transcendence.jsonl" ∧
    "/logs/ft_transcendence.jsonl" ≠ "a.txt" := by
  refine ⟨by decide, by decide, by decide, by decide⟩

/-- C2 (amended): the resolver always returns a path and never fails; the
override is returned verbatim when present and non-empty (an empty
override is treated as absent, by Python truthiness); otherwise, on a
listing error the hardcoded default is returned; when the listing has
exactly one entry and that entry is a file, its path is returned; when the
single-entry branch does not fire, the most recently modified
jsonish-named file is returned if any exists (first-listed on mtime ties),
and the hardcoded default otherwise.  In particular, for a scan directory
holding files "a.txt", "b.jsonlog", "c.jsonlog" with b newest and no
override, "b.jsonlog" is returned. -/
theorem c2_resolver (env : Option String) (listing : Except Unit (List FSEntry)) :
    (∀ s, env = some s → s ≠ "" → detect_log_file env listing = s) ∧
    (envTruthy env = false → listing = .error () →
      detect_log_file env listing = defaultLogPath) ∧
    (∀ e, envTruthy env = false → listing = .ok [e] → e.isFile = true →
      detect_log_file env listing = e.name) ∧
    (∀ ps, envTruthy env = false → listing = .ok ps →
      (ps.length == 1 && (ps.getD 0 dummyEntry).isFile) = false →
      ps.filter jsonish ≠ [] →
      ∃ p, p ∈ ps.filter jsonish ∧ detect_log_file env listing = p.name ∧
        ∀ x ∈ ps.filter jsonish, x.mtime ≤ p.mtime) ∧
    (∀ ps, envTruthy env = false → listing = .ok ps →
      (ps.length == 1 && (ps.getD 0 dummyEntry).isFile) = false →
      ps.filter jsonish = [] → detect_log_file env listing = defaultLogPath) ∧
    detect_log_file none (.ok [⟨"a.txt", true, 1⟩, ⟨"b.jsonlog", true, 10⟩,
      ⟨"c.jsonlog", true, 5⟩]) = "b.jsonlog" := by
  refine ⟨?_, ?_, ?_, ?_, ?_, by decide⟩
  · intro s hs hne
    subst hs
    have ht : envTruthy (some s) = true := by simp [envTruthy, hne]
    unfold detect_log_file
    rw [ht]
    simp
  · intro ht hl
    subst hl
    unfold detect_log_file
    rw [ht]
    simp
  · intro e ht hl hf
    subst hl
    unfold detect_log_file
    rw [ht]
    simp [hf, dummyEntry]
  · intro ps ht hl hcond hjs
    subst hl
    obtain ⟨p, hp, hmem, hmax⟩ := pickNewest_spec (ps.filter jsonish) hjs
    refine ⟨p, hmem, ?_, hmax⟩
    unfold detect_log_file
    rw [ht]
    simp only [Bool.false_eq_true, if_false, hcond, hp]
  · intro ps ht hl hcond hjs
    subst hl
    unfold detect_log_file
    rw [ht]
    simp only [Bool.false_eq_true, if_false, hcond, hjs]
    simp [pickNewest]

/-- Witness for C2 (amended): a non-empty override is returned verbatim;
a single-file listing yields that file. -/
theorem c2_resolver_witness :
    detect_log_file (some "/tmp/out.jsonl") (.ok []) = "/tmp/out.jsonl" ∧
    detect_log_file none (.ok [⟨"x.log", true, 0⟩]) = "x.log" :=
  ⟨(c2_resolver (some "/tmp/out.jsonl") (.ok [])).1 "/tmp/out.jsonl" rfl (by decide),
   (c2_resolver none (.ok [⟨"x.log", true, 0⟩])).2.2.1 ⟨"x.log", true, 0⟩ rfl rfl rfl⟩

/-! ## Claim C5 -/

theorem req_id_hex_forms : ∀ i < 11, 1 ≤ i →
    req_id i = "req-" ++ String.mk [Nat.digitChar (i - 1)] := by decide

theorem req_id_alpha_forms : ∀ i < 37, 11 ≤ i →
    req_id i = "req-" ++ String.mk [alphabet.data.getD (i - 1) ' '] := by decide

theorem req_id_mono36 : ∀ i < 37, ∀ j < 37, 1 ≤ i → i < j →
    strLt (req_id i) (req_id j) := by decide

theorem req_id_len36 : ∀ i < 37, 1 ≤ i → (req_id i).length = 5 := by decide

theorem req_id_large (i : Nat) (h : 37 ≤ i) : req_id i = "req-" ++ natToDecStr i := by
  unfold req_id
  rw [if_neg (by omega), if_neg (by omega)]

theorem lexLtB_irrefl : ∀ l : List Char, lexLtB l l = false := by
  intro l
  induction l with
  | nil => rfl
  | cons a as ih => simp [lexLtB, ih]

theorem strLt_ne (a b : String) (h : strLt a b) : a ≠ b := by
  intro he
  subst he
  unfold strLt at h
  rw [lexLtB_irrefl] at h
  exact absurd h (by simp)

/-- C5 counterexample: the identifiers are not strictly increasing (in the
string order Python uses, codepoint-lexicographic) across the whole
issuance sequence: the 36th issuance yields "req-z" and the 37th yields
"req-37", yet "req-37" sorts strictly below "req-z". -/
theorem c5_counterexample :
    req_id 36 = "req-z" ∧ req_id 37 = "req-37" ∧
    strLt (req_id 37) (req_id 36) ∧ ¬ strLt (req_id 36) (req_id 37) := by decide

/-- C5 (amended): the sequence yields "req-0".."req-9" for issuances 1..10
(single hex digit of n−1), the positionally indexed character of the fixed
alphabet for issuances 11..36 ("req-a".."req-z"), and the decimal number n
from issuance 37 on ("req-37", "req-38", ...).  All identifiers issued in
one process lifetime are pairwise distinct, and they are strictly
increasing (codepoint-lexicographically) within the first 36 issuances —
but not beyond: the 37th identifier sorts below the 36th (see the
counterexample), so strict growth across the whole lifetime fails. -/
theorem c5_req_id_sequence :
    (∀ i, 1 ≤ i → i ≤ 10 → req_id i = "req-" ++ String.mk [Nat.digitChar (i - 1)]) ∧
    (∀ i, 11 ≤ i → i ≤ 36 →
      req_id i = "req-" ++ String.mk [alphabet.data.getD (i - 1) ' ']) ∧
    (∀ i, 37 ≤ i → req_id i = "req-" ++ natToDecStr i) ∧
    (req_id 1 = "req-0" ∧ req_id 10 = "req-9" ∧ req_id 11 = "req-a" ∧
      req_id 36 = "req-z" ∧ req_id 37 = "req-37") ∧
    (∀ i j, 1 ≤ i → i < j → req_id i ≠ req_id j) ∧
    (∀ i j, 1 ≤ i → i < j → j ≤ 36 → strLt (req_id i) (req_id j)) := by
  refine ⟨?_, ?_, ?_, by decide, ?_, ?_⟩
  · intro i h1 h2
    exact req_id_hex_forms i (by omega) h1
  · intro i h1 h2
    exact req_id_alpha_forms i (by omega) h1
  · exact fun i h => req_id_large i h
  · intro i j h1 h2
    by_cases hj : j ≤ 36
    · exact strLt_ne _ _ (req_id_mono36 i (by omega) j (by omega) h1 h2)
    · by_cases hi : i ≤ 36
      · intro heq
        have l1 : (req_id i).length = 5 := req_id_len36 i (by omega) h1
        have l2 : 2 ≤ (natDecDigits j).length := natDecDigits_len_two j (by omega)
        have l3 : (req_id j).length = 4 + (natDecDigits j).length := by
          rw [req_id_large j (by omega), String.length_append]
          have h4 : ("req-" : String).length = 4 := by decide
          rw [h4]
          rfl
        rw [heq, l3] at l1
        omega
      · intro heq
        rw [req_id_large i (by omega), req_id_large j (by omega)] at heq
        have hd := congrArg String.data heq
        rw [String.data_append, String.data_append] at hd
        have hd2 := List.append_cancel_left hd
        have hmk := congrArg String.mk hd2
        rw [strMk_data, strMk_data] at hmk
        have := natToDecStr_inj i j hmk
        omega
  · intro i j h1 h2 h3
    exact req_id_mono36 i (by omega) j (by omega) h1 h2

/-- Witness for C5 (amended). -/
theorem c5_req_id_sequence_witness :
    req_id 1 = "req-" ++ String.mk [Nat.digitChar (1 - 1)] ∧
    req_id 40 = "req-" ++ natToDecStr 40 ∧
    req_id 1 ≠ req_id 2 ∧ strLt (req_id 1) (req_id 2) := by
  have h := c5_req_id_sequence
  exact ⟨h.1 1 (by decide) (by decide), h.2.2.1 40 (by decide),
    h.2.2.2.2.1 1 2 (by decide) (by decide),
    h.2.2.2.2.2 1 2 (by decide) (by decide) (by decide)⟩

end Loggen
